import Mathlib

/-!
Verification development for the json-exporter repository.

We shallowly embed the configuration-compilation and metric-extraction
engine of the exporter: the template mini-language parser (`src/tmpl.rs`),
the prepared plan and template evaluation (`src/prepare.rs`), the filter
registry (`src/filters.rs`), and the extraction/emission engine
(`src/convert.rs`).

Modelling conventions:
- Rust `String`/`&str` are Lean `String` (parsers work on `List Char`,
  which is `String.data`).
- `serde_json::Value` is the inductive `JValue`; JSON numbers are modelled
  as exact rationals.  `f64` arithmetic is modelled exactly on rationals,
  except for the IEEE-754 special cases of division by a zero divisor
  (which are rounding-free and fully specified); rounding/overflow of
  ordinary finite arithmetic is not modelled, and no statement below
  depends on it.
- `BTreeMap`/`HashMap` are association lists; lookups are what all
  statements use, so the physical key order inside the list is immaterial.
- The byte sink (`buf: &mut W`) is abstracted to a list of `Event`s: the
  code writes, per successfully dumped sample, an optional `# TYPE` header
  line followed by one sample line; an `Event` records exactly the data of
  one such line, plus the effective metric type that the dump logic used
  to admit the line.
- The external `jsonpath` crate (a dependency, not part of src/) is
  modelled from the spec, see `JsonSelector.find` below.
-/

namespace JsonExporter

/-- MetricType mirrors `config.rs`: `enum MetricType { Gauge, Counter, Untyped }`. -/
inductive MetricType where
  | gauge
  | counter
  | untyped
deriving DecidableEq

/-- JValue mirrors `serde_json::Value`; numbers are modelled as exact rationals. -/
inductive JValue where
  | null
  | bool (b : Bool)
  | num (q : Rat)
  | str (s : String)
  | arr (xs : List JValue)
  | obj (kvs : List (String × JValue))

/-- Step mirrors `jsonpath::Step`: `Root | Key(String) | Index(u64)`. -/
inductive Step where
  | root
  | key (k : String)
  | index (i : Nat)
deriving DecidableEq

/-- JMatch mirrors `jsonpath::Match { value, path }`: one selector match,
carrying the matched value and the path of steps from the root to it. -/
structure JMatch where
  value : JValue
  path : List Step

/-- LogLevel mirrors the `log::Level` values used by the engine (only
`Warn` is ever produced by the extraction code embedded here). -/
inductive LogLevel where
  | warn
deriving DecidableEq

/-! ## Template mini-language parser (`src/tmpl.rs`)

The source uses nom combinators over `&str`.  We embed each combinator
chain as a function `List Char → Option (List Char × α)` returning the
unconsumed input and the parsed value, `none` being a nom parse error. -/

/-- Var mirrors `tmpl.rs`: `enum Var { PathPart(u32), Selector(String) }`. -/
inductive Var where
  | pathPart (i : Nat)
  | selector (s : String)
deriving DecidableEq

/-- Placeholder mirrors `tmpl.rs`: `enum Placeholder { Text(String), Var(Var) }`. -/
inductive Placeholder where
  | text (t : String)
  | var (v : Var)
deriving DecidableEq

/-- Whitespace recognized by nom's `multispace0` (space, tab, carriage
return, line feed); also used to model `str::trim_end` on selector bodies. -/
def isWsChar (c : Char) : Bool :=
  c = ' ' || c = '\t' || c = '\n' || c = '\r'

/-- Numeric value of a list of ASCII digits, as computed by `str::parse`. -/
def digitsToNat (ds : List Char) : Nat :=
  ds.foldl (fun a c => a * 10 + (c.toNat - 48)) 0

/-- puint mirrors `uint`: `map_res(digit1, str::parse::<u32>)`.  `digit1`
consumes one or more leading digits; the `u32` parse fails when the value
exceeds `u32::MAX`. -/
def puint (cs : List Char) : Option (List Char × Nat) :=
  let ds := cs.takeWhile Char.isDigit
  if ds.isEmpty then none
  else
    let n := digitsToNat ds
    if n ≤ 4294967295 then some (cs.dropWhile Char.isDigit, n) else none

/-- pvarIx mirrors `var_ix`: `map(uint, Var::PathPart)`. -/
def pvarIx (cs : List Char) : Option (List Char × Var) :=
  match puint cs with
  | some (rem, n) => some (rem, Var.pathPart n)
  | none => none

/-- Mirror of `str::trim_end` (trailing whitespace removed). -/
def trimEndWs (cs : List Char) : List Char :=
  (cs.reverse.dropWhile isWsChar).reverse

/-- pselector mirrors `selector`: `recognize(pair(tag("$"), rest))`
followed by `trim_end` — `tag("$")` requires the first character to be
`'$'`, `rest` consumes everything, and the recognized text is returned
with trailing whitespace trimmed.  Note that a body starting with `'.'`
is rejected by `tag("$")`. -/
def pselector (cs : List Char) : Option (List Char × String) :=
  if cs.head? = some '$' then some ([], String.mk (trimEndWs cs)) else none

/-- pvarIdent mirrors `var_ident`: `map(selector, Var::Selector)`. -/
def pvarIdent (cs : List Char) : Option (List Char × Var) :=
  match pselector cs with
  | some (rem, s) => some (rem, Var.selector s)
  | none => none

/-- pvar mirrors `var`: `alt((var_ix, var_ident))`. -/
def pvar (cs : List Char) : Option (List Char × Var) :=
  match pvarIx cs with
  | some r => some r
  | none => pvarIdent cs

/-- wsVar mirrors `ws(var)`: `delimited(multispace0, var, multispace0)`. -/
def wsVar (cs : List Char) : Option (List Char × Var) :=
  match pvar (cs.dropWhile isWsChar) with
  | some (rem, v) => some (rem.dropWhile isWsChar, v)
  | none => none

/-- pvarPlaceholder mirrors `var_placeholder`: `delimited(tag("$\x7b"),
is_not("\x7d"), tag("\x7d"))` captures the bracketed body (at least one
character, up to the first closing brace), then `map(ws(var),
Placeholder::Var)` is run on the body; any unconsumed tail of the body is
discarded, exactly as in the source (`let (_, placeholder) = ...`). -/
def pvarPlaceholder (cs : List Char) : Option (List Char × Placeholder) :=
  match cs with
  | '$' :: '{' :: cs1 =>
    let body := cs1.takeWhile (fun c => c ≠ '}')
    if body.isEmpty then none
    else
      match cs1.dropWhile (fun c => c ≠ '}') with
      | '}' :: rem =>
        match wsVar body with
        | some (_, v) => some (rem, Placeholder.var v)
        | none => none
      | _ => none
  | _ => none

/-- pvarSimple mirrors `var_simple_placeholder`: `preceded(tag("$"), var_ix)`. -/
def pvarSimple (cs : List Char) : Option (List Char × Placeholder) :=
  match cs with
  | '$' :: cs1 =>
    match pvarIx cs1 with
    | some (rem, v) => some (rem, Placeholder.var v)
    | none => none
  | _ => none

/-- ptext mirrors `text_placeholder`: `take_till1(|c| c == '$')`. -/
def ptext (cs : List Char) : Option (List Char × Placeholder) :=
  let t := cs.takeWhile (fun c => c ≠ '$')
  if t.isEmpty then none
  else some (cs.dropWhile (fun c => c ≠ '$'), Placeholder.text (String.mk t))

/-- paltP mirrors the `alt((var_placeholder, var_simple_placeholder,
text_placeholder))` inside `string_with_placeholders`. -/
def paltP (cs : List Char) : Option (List Char × Placeholder) :=
  match pvarPlaceholder cs with
  | some r => some r
  | none =>
    match pvarSimple cs with
    | some r => some r
    | none => ptext cs

/-- Iteration of `many1`'s inner loop.  The fuel argument only bounds the
number of iterations so that the recursion is structural; it is
initialized to `length + 1`, which always suffices because every
successful parse of `paltP` consumes at least one character (the guard
`rem.length < cs.length` mirrors nom's protection against parsers that
succeed without consuming input). -/
def swpLoop : Nat → List Char → List Char × List Placeholder
  | 0, cs => (cs, [])
  | fuel + 1, cs =>
    match paltP cs with
    | none => (cs, [])
    | some (rem, p) =>
      if rem.length < cs.length then
        let r := swpLoop fuel rem
        (r.1, p :: r.2)
      else (cs, [])

/-- string_with_placeholders mirrors `string_with_placeholders`:
`many1(alt(...))` — at least one placeholder must parse; the remaining
unconsumed input is returned alongside the parsed list. -/
def string_with_placeholders (cs : List Char) : Option (List Char × List Placeholder) :=
  match swpLoop (cs.length + 1) cs with
  | (_, []) => none
  | (rem, ps) => some (rem, ps)

/-! ## JSON selector (component B)

Modelled from the spec: the selector implementation is the external
`jsonpath` crate (a dependency whose source is not part of src/); §4.B
gives its contract: `find(E, root)` enumerates `Match { value, path }`
where `path` is the sequence `[Root, Step₁, …, Stepₖ]` followed from the
root to the value; the empty expression matches exactly the root once;
supported features are `.` key access, `.*` wildcard over a map or an
array, and array indexing; matches come in document order. -/

/-- One compiled selector operation: key access, wildcard, or array index. -/
inductive SelOp where
  | key (k : String)
  | wildcard
  | index (i : Nat)
deriving DecidableEq

/-- Child entries of a JSON value together with the path step leading to
each, used by the wildcard operation (document order). -/
def childEntries : JValue → List (Step × JValue)
  | .obj kvs => kvs.map (fun kv => (Step.key kv.1, kv.2))
  | .arr xs => (List.range xs.length).zip xs |>.map (fun iv => (Step.index iv.1, iv.2))
  | _ => []

/-- Selector evaluation: `p` is the path accumulated so far. -/
def selFindAux : List SelOp → JValue → List Step → List JMatch
  | [], v, p => [⟨v, p⟩]
  | SelOp.key k :: ops, v, p =>
    match v with
    | .obj kvs => (kvs.filter (fun kv => kv.1 = k)).flatMap
        (fun kv => selFindAux ops kv.2 (p ++ [Step.key k]))
    | _ => []
  | SelOp.index i :: ops, v, p =>
    match v with
    | .arr xs =>
      match xs.get? i with
      | some x => selFindAux ops x (p ++ [Step.index i])
      | none => []
    | _ => []
  | SelOp.wildcard :: ops, v, p =>
    (childEntries v).flatMap (fun sv => selFindAux ops sv.2 (p ++ [sv.1]))

/-- JsonSelector's compiled form: a sequence of selector operations. -/
def JsonSelector := List SelOp

/-- JsonSelector.find mirrors the contract of `JsonSelector::find` (§4.B):
enumerate all matches of the selector within `root`, each carrying its
path `[Root, Step₁, …]`. -/
def JsonSelector.find (sel : JsonSelector) (root : JValue) : List JMatch :=
  selFindAux sel root [Step.root]

/-! ## Prepared placeholders and template evaluation (`src/prepare.rs`) -/

/-- PreparedPlaceholder mirrors `prepare.rs`:
`enum PreparedPlaceholder { Text(String), VarIx(u32), VarIdent(JsonSelector) }`
(the selector is kept in its compiled form). -/
inductive PreparedPlaceholder where
  | text (t : String)
  | varIx (i : Nat)
  | varIdent (sel : List SelOp)

/-- Characters admitted inside a key segment of the modelled jsonpath
expression dialect: anything but the structural characters `.`, `[`,
`]`, `*`. -/
def isKeyChar (c : Char) : Bool :=
  !(c = '.' || c = '[' || c = ']' || c = '*')

/-- Modelled from the spec: the expression parser of the external
`jsonpath` crate's `Selector::new` (a dependency, not under src/).  The
spec pins only a minimum dialect — `.` key access, `.*` wildcard, array
indexing (§4.B) — and instructs implementations to document their subset
and reject the rest at compile time (§9); we parse exactly that subset
after the leading `$`: a sequence of `.` key, `.*`, or `[digits]`
segments, rejecting anything else.  The fuel argument only bounds the
number of segments so that the recursion is structural; it is
initialized to `length + 1`, which always suffices because every segment
consumes at least one character. -/
def parseSegments : Nat → List Char → Except Unit (List SelOp)
  | 0, _ => .error ()
  | fuel + 1, cs =>
    match cs with
    | [] => .ok []
    | '.' :: rest =>
      match rest with
      | '*' :: rest2 =>
        match parseSegments fuel rest2 with
        | .ok ops => .ok (SelOp.wildcard :: ops)
        | .error e => .error e
      | _ =>
        let k := rest.takeWhile isKeyChar
        if k.isEmpty then .error ()
        else
          match parseSegments fuel (rest.dropWhile isKeyChar) with
          | .ok ops => .ok (SelOp.key (String.mk k) :: ops)
          | .error e => .error e
    | '[' :: rest =>
      let ds := rest.takeWhile Char.isDigit
      if ds.isEmpty then .error ()
      else
        match rest.dropWhile Char.isDigit with
        | ']' :: rest2 =>
          match parseSegments fuel rest2 with
          | .ok ops => .ok (SelOp.index (digitsToNat ds) :: ops)
          | .error e => .error e
        | _ => .error ()
    | _ => .error ()

/-- Modelled from the spec: `Selector::new` of the external `jsonpath`
crate — the expression must be rooted at `$` and consist of the
documented segment subset; everything else is rejected at compile time. -/
def Selector.new (expression : List Char) : Except Unit (List SelOp) :=
  match expression with
  | '$' :: rest => parseSegments (rest.length + 1) rest
  | _ => .error ()

/-- JsonSelector.new mirrors `JsonSelector::new` in `prepare.rs`: an
empty expression becomes `$`, any other expression `e` becomes `$.e`;
the result is handed to the (external, spec-modelled) `Selector::new`,
whose failure fails the compilation. -/
def JsonSelector.new (e : String) : Except Unit (List SelOp) :=
  if e.data.isEmpty then Selector.new ['$']
  else Selector.new ('$' :: '.' :: e.data)

/-- PreparedPlaceholder.create_from mirrors
`PreparedPlaceholder::create_from` in `prepare.rs`: literals and
positional placeholders convert directly; a selector placeholder
compiles its body through `JsonSelector::new`, whose failure fails the
template compilation. -/
def PreparedPlaceholder.create_from : Placeholder → Except Unit PreparedPlaceholder
  | .text t => .ok (PreparedPlaceholder.text t)
  | .var (Var.pathPart i) => .ok (PreparedPlaceholder.varIx i)
  | .var (Var.selector ident) =>
    match JsonSelector.new ident with
    | .ok sel => .ok (PreparedPlaceholder.varIdent sel)
    | .error e => .error e

/-- Iteration of `PreparedPlaceholder::create_from` over the parsed
placeholders (the `collect::<Result<Vec<_>, _>>()` in
`TemplateProcessor::create_from`): the first failing placeholder aborts. -/
def preparePlaceholders : List Placeholder → Except Unit (List PreparedPlaceholder)
  | [] => .ok []
  | p :: ps =>
    match PreparedPlaceholder.create_from p with
    | .error e => .error e
    | .ok q =>
      match preparePlaceholders ps with
      | .error e => .error e
      | .ok qs => .ok (q :: qs)

/-- createFromChars mirrors `TemplateProcessor::create_from` on the
character list of the template string: the empty template compiles to an
empty placeholder list; otherwise `string_with_placeholders` must
succeed and only its parsed prefix is kept — the unconsumed remainder is
discarded (`...?.1` in the source) — after which every parsed
placeholder is prepared via `PreparedPlaceholder::create_from` (so a
selector placeholder whose body the jsonpath expression parse rejects
still fails the compilation). -/
def createFromChars (cs : List Char) : Except Unit (List PreparedPlaceholder) :=
  if cs.isEmpty then .ok []
  else
    match string_with_placeholders cs with
    | none => .error ()
    | some (_, ps) => preparePlaceholders ps

/-- create_from mirrors `TemplateProcessor::create_from` on `String`. -/
def create_from (s : String) : Except Unit (List PreparedPlaceholder) :=
  createFromChars s.data

/-- Rendering of a JSON number by `Number`'s `Display`; its exact text is
immaterial to every statement below. -/
def numToString (q : Rat) : String := toString q

/-- applyNode mirrors one arm of the `for placeholder in &self.tmpl` loop
of `TemplateProcessor::apply`: a literal contributes its text; `VarIx(i)`
looks up `found.path[i + 1]` and fails with `Invalid path index: i` when
the path has no such step, or with `Root element is not supported` when
that step is `Root`; `VarIdent(sel)` contributes the stringified first
match of the selector within the current value (scalars only; a
non-scalar or no match contributes the empty string). -/
def applyNode : PreparedPlaceholder → JMatch → Except String String
  | .text t, _ => .ok t
  | .varIx i, f =>
    match f.path.get? (i + 1) with
    | some (Step.key k) => .ok k
    | some (Step.index ix) => .ok (toString ix)
    | some Step.root => .error "Root element is not supported"
    | none => .error ("Invalid path index: " ++ toString i)
  | .varIdent sel, f =>
    match JsonSelector.find sel f.value with
    | [] => .ok ""
    | v :: _ =>
      .ok (match v.value with
           | .str s => s
           | .bool b => toString b
           | .num q => numToString q
           | _ => "")

/-- TemplateProcessor.apply mirrors `TemplateProcessor::apply`: the nodes
are evaluated left to right, their texts concatenated; the first failing
node aborts with its error. -/
def TemplateProcessor.apply : List PreparedPlaceholder → JMatch → Except String String
  | [], _ => .ok ""
  | p :: ps, f =>
    match applyNode p f with
    | .error e => .error e
    | .ok t =>
      match TemplateProcessor.apply ps f with
      | .error e => .error e
      | .ok rest => .ok (t ++ rest)

/-! ## Label-value escaping (`src/convert.rs`, `PreparedLabels`) -/

/-- escapeChars mirrors the loop of `escape_label_value`: `"` becomes
`\"`, a line feed becomes `\n`, `\` becomes `\\`, everything else is
copied unchanged. -/
def escapeChars : List Char → List Char
  | [] => []
  | c :: rest =>
    (if c = '"' then ['\\', '"']
     else if c = '\n' then ['\\', 'n']
     else if c = '\\' then ['\\', '\\']
     else [c]) ++ escapeChars rest

/-- escape of a label value (the `escape_label_value` transformation). -/
def escape (s : String) : String := String.mk (escapeChars s.data)

/-- shouldEscapeCount mirrors `should_escape_label_value`: the number of
characters requiring an escape. -/
def shouldEscapeCount (s : String) : Nat :=
  s.data.countP (fun c => c = '\\' || c = '"' || c = '\n')

/-- safeValue mirrors the conditional in `PreparedLabels::resolve`: the
value is passed through unchanged when nothing needs escaping, and is
escaped otherwise. -/
def safeValue (s : String) : String :=
  match shouldEscapeCount s with
  | 0 => s
  | _ => escape s

/-- Inverse of `escape`: a backslash introduces an escape pair (`n`
decoding to a line feed, any other character to itself). -/
def unescapeChars : List Char → List Char
  | [] => []
  | c :: rest =>
    if c = '\\' then
      match rest with
      | [] => [c]
      | d :: rest2 => (if d = 'n' then '\n' else d) :: unescapeChars rest2
    else c :: unescapeChars rest

/-- unescape on `String`. -/
def unescape (s : String) : String := String.mk (unescapeChars s.data)

/-- dump_label_value mirrors `ResolvedMetric::dump_label_value`: the
stored label value is written verbatim between double quotes (no second
escaping happens at dump time). -/
def dump_label_value (v : String) : String := "\"" ++ v ++ "\""

/-! ## Resolved metrics, labels, merging (`src/convert.rs`) -/

/-- Association-list lookup (models `BTreeMap` lookup on label maps). -/
def lookupL (k : String) : List (String × String) → Option String
  | [] => none
  | (k2, v) :: rest => if k2 = k then some v else lookupL k rest

/-- Map insert with overwrite (models `BTreeMap::insert`; the physical
position of the key in the list is immaterial, lookups are what all
statements use). -/
def insertLabel (n v : String) : List (String × String) → List (String × String)
  | [] => [(n, v)]
  | (k, w) :: rest => if k = n then (n, v) :: rest else (k, w) :: insertLabel n v rest

/-- Insert-if-absent (models `BTreeMap::entry(..).or_insert_with(..)`). -/
def orInsert (n v : String) : List (String × String) → List (String × String)
  | [] => [(n, v)]
  | (k, w) :: rest => if k = n then (k, w) :: rest else (k, w) :: orInsert n v rest

/-- ResolvedMetric mirrors `convert.rs`:
`struct ResolvedMetric { name, metric_type, labels }`. -/
structure ResolvedMetric where
  name : String
  metricType : Option MetricType
  labels : List (String × String)

/-- merge_with_parent mirrors `ResolvedMetric::merge_with_parent`: the
names are joined with `_` (an empty side is absorbed), and every parent
label whose key the child did not set is inherited; a key set by the
child is never overwritten. -/
def ResolvedMetric.merge_with_parent (child parent : ResolvedMetric) : ResolvedMetric :=
  { name :=
      if parent.name.isEmpty then child.name
      else if child.name.isEmpty then parent.name
      else parent.name ++ "_" ++ child.name,
    metricType := child.metricType,
    labels := parent.labels.foldl (fun acc kv => orInsert kv.1 kv.2 acc) child.labels }

/-- labelsResolveAux mirrors the loop of `PreparedLabels::resolve`: each
label's template is evaluated on the current match, escaped via
`safeValue`, and inserted into the accumulated map; the first failing
template aborts with its error. -/
def labelsResolveAux (labels : List (String × List PreparedPlaceholder)) (f : JMatch)
    (acc : List (String × String)) : Except String (List (String × String)) :=
  match labels with
  | [] => .ok acc
  | (n, tp) :: rest =>
    match TemplateProcessor.apply tp f with
    | .error e => .error e
    | .ok v => labelsResolveAux rest f (insertLabel n (safeValue v) acc)

/-- PreparedLabels.resolve mirrors `PreparedLabels::resolve`. -/
def PreparedLabels.resolve (labels : List (String × List PreparedPlaceholder)) (f : JMatch) :
    Except String (List (String × String)) :=
  labelsResolveAux labels f []

/-- autoNameAux mirrors the name-derivation loop in
`PreparedMetric::resolve` for an absent name template: steps are visited
with their index; from index 2 on an underscore separator is pushed
first; `Root` contributes nothing, `Index(i)` its decimal form, `Key(k)`
the key. -/
def autoNameAux : Nat → List Step → String
  | _, [] => ""
  | ix, s :: rest =>
    (if ix > 1 then "_" else "") ++
    (match s with
     | Step.root => ""
     | Step.index i => toString i
     | Step.key k => k) ++
    autoNameAux (ix + 1) rest

/-- autoName: the metric name derived from a match's path when the metric
has no name template. -/
def autoName (path : List Step) : String := autoNameAux 0 path

/-! ## Filters (`src/filters.rs`, `Filter::prepare` in `src/prepare.rs`) -/

/-- Float model: an f64 is either an exact finite value or one of the
IEEE-754 special values.  Finite arithmetic is modelled exactly; only the
(rounding-free) zero-divisor special cases are modelled specially. -/
inductive F where
  | finite (q : Rat)
  | posInf
  | negInf
  | nan
deriving DecidableEq

/-- Finiteness of a modelled f64. -/
def F.isFinite : F → Bool
  | .finite _ => true
  | _ => false

/-- f64 multiplication (exact model on finite values). -/
def f64Mul (a b : Rat) : F := F.finite (a * b)

/-- f64 division: a zero divisor yields NaN for a zero dividend and a
signed infinity otherwise (IEEE-754); other divisions are exact. -/
def f64Div (a b : Rat) : F :=
  if b = 0 then
    if a = 0 then F.nan else if a > 0 then F.posInf else F.negInf
  else F.finite (a / b)

/-- valueFromF mirrors `serde_json::Value::from(f64)`: a finite value
becomes a JSON number, every non-finite value becomes JSON null. -/
def valueFromF : F → JValue
  | .finite q => JValue.num q
  | _ => JValue.null

/-- Scalar equality as implemented by `Equal::apply`: values of equal
scalar kind compare by value, everything else is unequal. -/
def equalApply (a b : JValue) : Bool :=
  match a, b with
  | .str x, .str y => x = y
  | .num x, .num y => x = y
  | .bool x, .bool y => x = y
  | .null, .null => true
  | _, _ => false

/-- PreparedFilter mirrors the boxed `dyn Filter` instances of
`filters.rs`: `Const`, `Multiply`, `Divide`, `Equal` with their
constructed state. -/
inductive PreparedFilter where
  | const (v : JValue)
  | multiply (factor : Rat)
  | divide (denominator : Rat)
  | equal (v : JValue)

/-- PreparedFilter.apply mirrors the `Filter::apply` implementations:
`Const` returns its fixed value; `Multiply`/`Divide` require a numeric
input (`Invalid type` otherwise) and return `Value::from` of the f64
result; `Equal` returns the boolean scalar equality. -/
def PreparedFilter.apply : PreparedFilter → JValue → Except String JValue
  | .const v, _ => .ok v
  | .multiply factor, v =>
    match v with
    | .num q => .ok (valueFromF (f64Mul q factor))
    | _ => .error "Invalid type"
  | .divide den, v =>
    match v with
    | .num q => .ok (valueFromF (f64Div q den))
    | _ => .error "Invalid type"
  | .equal w, v => .ok (JValue.bool (equalApply w v))

/-- Assoc lookup in a JSON object (models `serde_json::Map::get`). -/
def lookupJ (k : String) : List (String × JValue) → Option JValue
  | [] => none
  | (k2, v) :: rest => if k2 = k then some v else lookupJ k rest

/-- single_scalar_arg mirrors `filters.rs::single_scalar_arg`: a scalar is
taken as-is, a one-element array is unwrapped, anything else is an error. -/
def single_scalar_arg : JValue → Except String JValue
  | .num q => .ok (JValue.num q)
  | .str s => .ok (JValue.str s)
  | .bool b => .ok (JValue.bool b)
  | .arr [arg] => .ok arg
  | .arr _ => .error "Single argument required"
  | .obj _ => .error "Object arguments is not supported"
  | .null => .error "Single argument required"

/-- single_arg_f64 mirrors `filters.rs::single_arg_f64`: a number, a
one-element numeric array, or (when a keyword is allowed) a one-entry map
under that keyword. -/
def single_arg_f64 (args : JValue) (mapKey : Option String) : Except String Rat :=
  match args with
  | .num q => .ok q
  | .arr [JValue.num q] => .ok q
  | .arr _ => .error "Invalid argument"
  | .obj map =>
    match mapKey with
    | some k =>
      if map.length > 1 then .error "Too many arguments"
      else
        match lookupJ k map with
        | some (JValue.num q) => .ok q
        | _ => .error "Invalid argument"
    | none => .error "Keyword arguments is not supported"
  | _ => .error "Invalid arguments"

/-- Const.create mirrors `Const::create`. -/
def Const.create (args : JValue) : Except String PreparedFilter :=
  match single_scalar_arg args with
  | .ok v => .ok (PreparedFilter.const v)
  | .error e => .error e

/-- Multiply.create mirrors `Multiply::create` (keyword `factor`). -/
def Multiply.create (args : JValue) : Except String PreparedFilter :=
  match single_arg_f64 args (some "factor") with
  | .ok q => .ok (PreparedFilter.multiply q)
  | .error e => .error e

/-- Divide.create mirrors `Divide::create` (keyword `divisor`). -/
def Divide.create (args : JValue) : Except String PreparedFilter :=
  match single_arg_f64 args (some "divisor") with
  | .ok q => .ok (PreparedFilter.divide q)
  | .error e => .error e

/-- Equal.create mirrors `Equal::create`. -/
def Equal.create (args : JValue) : Except String PreparedFilter :=
  match single_scalar_arg args with
  | .ok v => .ok (PreparedFilter.equal v)
  | .error e => .error e

/-- Raw filter entry of the configuration: `Filter { name, args }`
(the deserialized `Metric.modifiers[i]`). -/
structure FilterConfig where
  name : String
  args : JValue

/-- Filter.prepare mirrors `Filter::prepare` in `prepare.rs`: the match
registers only `mul`/`multiply` and `div`/`divide`; every other name —
including `const` and `eq`, whose constructors exist in `filters.rs` but
are not referenced here — falls to `Unknown filter: {name}`. -/
def Filter.prepare (f : FilterConfig) : Except String PreparedFilter :=
  if f.name = "mul" ∨ f.name = "multiply" then Multiply.create f.args
  else if f.name = "div" ∨ f.name = "divide" then Divide.create f.args
  else .error ("Unknown filter: " ++ f.name)

/-- Scalar JSON values (number, string, boolean). -/
def isScalar : JValue → Bool
  | .num _ => true
  | .str _ => true
  | .bool _ => true
  | _ => false

/-! ## The prepared plan (`src/prepare.rs`) -/

/-- PreparedMetric mirrors `prepare.rs`:
`struct PreparedMetric { selector, metric_type, name, name_processor,
filters, labels, metrics }` — `metrics` being the prepared children. -/
inductive PreparedMetric where
  | mk (selector : List SelOp) (metricType : Option MetricType)
       (name : Option String)
       (nameProcessor : Option (List PreparedPlaceholder))
       (filters : List PreparedFilter)
       (labels : List (String × List PreparedPlaceholder))
       (metrics : List PreparedMetric)

/-- Field accessor: the compiled path selector. -/
def PreparedMetric.selector : PreparedMetric → List SelOp
  | .mk sel _ _ _ _ _ _ => sel

/-- Field accessor: the (possibly inherited) metric type. -/
def PreparedMetric.metricType : PreparedMetric → Option MetricType
  | .mk _ mt _ _ _ _ _ => mt

/-- Field accessor: the compiled name template (`None` when the
configuration declared no `name`, which triggers path-derived naming). -/
def PreparedMetric.nameProcessor : PreparedMetric → Option (List PreparedPlaceholder)
  | .mk _ _ _ np _ _ _ => np

/-- Field accessor: the prepared filters (modifiers). -/
def PreparedMetric.filters : PreparedMetric → List PreparedFilter
  | .mk _ _ _ _ fl _ _ => fl

/-- Field accessor: the prepared labels. -/
def PreparedMetric.labels : PreparedMetric → List (String × List PreparedPlaceholder)
  | .mk _ _ _ _ _ lb _ => lb

/-- Field accessor: the prepared child metrics. -/
def PreparedMetric.metrics : PreparedMetric → List PreparedMetric
  | .mk _ _ _ _ _ _ ms => ms

/-! ## Extraction and emission (`src/convert.rs`) -/

/-- Event is the abstraction of one line written to the byte sink by
`ResolvedMetric::dump`: either a `# TYPE name type` header line, or a
`name{labels} value` sample line.  A sample event additionally records
the effective metric type the dump logic used to admit the line (the
bytes of a sample line do not repeat the type; recording it lets the
statements below speak about per-line types). -/
inductive Event where
  | header (name : String) (t : MetricType)
  | sample (name : String) (t : MetricType) (labels : List (String × String)) (value : JValue)

/-- Metric name carried by an event. -/
def Event.mname : Event → String
  | .header n _ => n
  | .sample n _ _ _ => n

/-- EmitState bundles the mutable state of `PreparedMetrics::process`:
the `seen_metrics` map, the byte sink (as events), and the warnings. -/
structure EmitState where
  seen : List (String × MetricType)
  events : List Event
  warnings : List (LogLevel × String)

/-- Lookup in the `seen_metrics` map. -/
def lookupSeen (n : String) : List (String × MetricType) → Option MetricType
  | [] => none
  | (m, t) :: rest => if m = n then some t else lookupSeen n rest

/-- check_value mirrors `ResolvedMetric::check_value`: numbers pass any
type; booleans pass `gauge` and `untyped`; strings pass only `untyped`;
everything else (null, arrays, objects) fails every type. -/
def check_value (v : JValue) (t : MetricType) : Bool :=
  match v with
  | .num _ => true
  | .bool _ =>
    match t with
    | .gauge => true
    | .untyped => true
    | .counter => false
  | .str _ =>
    match t with
    | .untyped => true
    | .gauge => false
    | .counter => false
  | _ => false

/-- effectiveType mirrors the `match (self.metric_type, seen_metric_type)`
at the top of `ResolvedMetric::dump`: the declared type if any, else the
previously seen type, else a type inferred from the value (string ↦
untyped, number or boolean ↦ gauge, others ↦ reject); a declared type
that disagrees with the seen one rejects the sample. -/
def effectiveType (declared seen : Option MetricType) (value : JValue) : Option MetricType :=
  match declared, seen with
  | some m, none => some m
  | none, some m => some m
  | some m, some s => if m = s then some s else none
  | none, none =>
    match value with
    | .str _ => some MetricType.untyped
    | .num _ => some MetricType.gauge
    | .bool _ => some MetricType.gauge
    | _ => none

/-- ResolvedMetric.dump mirrors `ResolvedMetric::dump`: compute the
effective type (`none` drops the sample), check the value against it
(failure drops the sample), then write a `# TYPE` header when no type has
been recorded for this name yet, followed by the sample line; the
effective type is returned. -/
def ResolvedMetric.dump (rm : ResolvedMetric) (value : JValue) (seen : Option MetricType) :
    Option (MetricType × List Event) :=
  match effectiveType rm.metricType seen value with
  | none => none
  | some t =>
    if check_value value t then
      some (t, (if seen.isNone then [Event.header rm.name t] else []) ++
               [Event.sample rm.name t rm.labels value])
    else none

/-- Left-to-right filter application, as in the `for filter in
&metric.filters` loop of `PreparedMetrics::process`; the first failing
filter aborts with its error.  (The source short-circuits an empty filter
list to avoid a clone; that is an allocation optimization with the same
result.) -/
def applyFilters : List PreparedFilter → JValue → Except String JValue
  | [], v => .ok v
  | f :: fs, v =>
    match PreparedFilter.apply f v with
    | .error e => .error e
    | .ok v2 => applyFilters fs v2

/-- Warning text recorded when a sample is dropped by `dump` (the source
formats the `ResolvedMetric` with `Debug`; only the fact that a warning
is recorded matters below, so the rendering is abbreviated to the name). -/
def dumpWarnMsg (rm : ResolvedMetric) : String :=
  "Error when dumping metric: " ++ rm.name

/-- emitSample mirrors the body of the `'metrics_loop` in
`PreparedMetrics::process` for one `(json, resolved_metric)` pair: apply
the filters (a filter error records a warning and skips the sample), look
up the seen type, dump, record the dumped type for the name when it was
not yet seen, and record a warning when the dump dropped the sample. -/
def emitSample (filters : List PreparedFilter) (json : JValue) (rm : ResolvedMetric)
    (st : EmitState) : EmitState :=
  match applyFilters filters json with
  | .error e =>
    { st with warnings := st.warnings ++ [(LogLevel.warn, "Error when applying filter: " ++ e)] }
  | .ok value =>
    let seenType := lookupSeen rm.name st.seen
    match rm.dump value seenType with
    | some (t, evs) =>
      { st with
        events := st.events ++ evs,
        seen := if seenType.isNone then (rm.name, t) :: st.seen else st.seen }
    | none =>
      { st with warnings := st.warnings ++ [(LogLevel.warn, dumpWarnMsg rm)] }

/-- Iteration of `emitSample` over the resolved state list of a leaf
metric, in order. -/
def emitAll (filters : List PreparedFilter) :
    List (JValue × ResolvedMetric) → EmitState → EmitState
  | [], st => st
  | (v, rm) :: rest, st => emitAll filters rest (emitSample filters v rm st)

/-- PreparedMetric.resolve mirrors `PreparedMetric::resolve`: the name is
the evaluated name template when one exists, else the `_`-join derived
from the match's path; then the labels are resolved; the first failure
aborts with its error. -/
def PreparedMetric.resolve (m : PreparedMetric) (f : JMatch) : Except String ResolvedMetric :=
  match (match m.nameProcessor with
         | some np => TemplateProcessor.apply np f
         | none => .ok (autoName f.path)) with
  | .error e => .error e
  | .ok name =>
    match PreparedLabels.resolve m.labels f with
    | .error e => .error e
    | .ok ls => .ok ⟨name, m.metricType, ls⟩

/-- resolveIntoAux mirrors the `for found in self.selector.find(json)`
loop of `PreparedMetric::resolve_into`, applied to the list of matches: a
match that fails to resolve records a `Warn` with the error text and is
skipped; a resolved match is merged with the parent metric and collected
together with its value. -/
def resolveIntoAux (m : PreparedMetric) (parent : ResolvedMetric) :
    List JMatch → EmitState → List (JValue × ResolvedMetric) × EmitState
  | [], st => ([], st)
  | f :: rest, st =>
    match m.resolve f with
    | .ok rm =>
      let r := resolveIntoAux m parent rest st
      ((f.value, rm.merge_with_parent parent) :: r.1, r.2)
    | .error e =>
      resolveIntoAux m parent rest
        { st with warnings := st.warnings ++ [(LogLevel.warn, e)] }

/-- PreparedMetric.resolve_into mirrors `PreparedMetric::resolve_into`. -/
def PreparedMetric.resolve_into (m : PreparedMetric) (parent : ResolvedMetric) (json : JValue)
    (st : EmitState) : List (JValue × ResolvedMetric) × EmitState :=
  resolveIntoAux m parent (JsonSelector.find m.selector json) st

/-- resolveAll mirrors the construction of `state` for one metric visit in
`PreparedMetrics::process`: `resolve_into` is run against every
`(parent_json, parent_metric)` pair of the parent context, appending into
one list. -/
def resolveAll (m : PreparedMetric) :
    List (JValue × ResolvedMetric) → EmitState → List (JValue × ResolvedMetric) × EmitState
  | [], st => ([], st)
  | (pj, pm) :: rest, st =>
    let r1 := m.resolve_into pm pj st
    let r2 := resolveAll m rest r1.2
    (r1.1 ++ r2.1, r2.2)

/-- processForest is the recursive rendering of the explicit stack loop in
`PreparedMetrics::process`: the stack machine performs exactly this
depth-first traversal (a frame's iterator is the `List PreparedMetric`
still to visit, the parent context is `ps`).  For each metric the current
context is resolved against every parent pair; a leaf emits every
resolved sample through `emitSample`, a non-leaf recurses into its
children with the resolved list as the new parent context. -/
def processForest : List PreparedMetric → List (JValue × ResolvedMetric) → EmitState → EmitState
  | [], _, st => st
  | PreparedMetric.mk sel mt nm np fl lb children :: rest, ps, st =>
    let r := resolveAll (PreparedMetric.mk sel mt nm np fl lb children) ps st
    let st2 :=
      if children.isEmpty then emitAll fl r.1 r.2
      else processForest children r.1 r.2
    processForest rest ps st2

/-- PreparedMetrics.process mirrors `PreparedMetrics::process`: the stack
starts with the top-level metrics and no parent context; a missing parent
context means resolving against the document with the root metric, which
equals a one-element context `[(json, root_metric)]`.  The initial
`seen_metrics` map, sink, and warning list are empty. -/
def PreparedMetrics.process (ms : List PreparedMetric) (rootMetric : ResolvedMetric)
    (json : JValue) : EmitState :=
  processForest ms [(json, rootMetric)] ⟨[], [], []⟩

/-- Events for one metric name, in emission order. -/
def eventsFor (n : String) (evs : List Event) : List Event :=
  evs.filter (fun e => Event.mname e == n)

/-- TypeOk is the per-emission invariant tying the `seen_metrics` map to
the emitted events: a name not in the map has produced no line at all; a
name recorded with type `t` has produced exactly one `# TYPE` header —
its first line — and all its further lines are samples of type `t`. -/
def TypeOk (seen : List (String × MetricType)) (evs : List Event) : Prop :=
  ∀ n : String,
    (lookupSeen n seen = none → eventsFor n evs = []) ∧
    ∀ t : MetricType, lookupSeen n seen = some t →
      ∃ ss, eventsFor n evs = Event.header n t :: ss ∧
        ∀ e ∈ ss, ∃ ls v, e = Event.sample n t ls v

/-- Specification-side text of one path step: `Key(k)` contributes `k`,
`Index(i)` the decimal form of `i` (the spec's auto-naming never sees a
root step). -/
def stepToText : Step → String
  | Step.root => ""
  | Step.index i => toString i
  | Step.key k => k

/-- Specification-side separator-prefixed join tail. -/
def joinTail : List String → String
  | [] => ""
  | y :: ys => "_" ++ y ++ joinTail ys

/-- Specification-side `_`-join of a list of segments, following the
spec's words for the auto-derived metric name. -/
def joinUnderscore : List String → String
  | [] => ""
  | x :: xs => x ++ joinTail xs

/-! ## Supporting lemmas -/

theorem eventsFor_append (n : String) (a b : List Event) :
    eventsFor n (a ++ b) = eventsFor n a ++ eventsFor n b := by
  simp [eventsFor, List.filter_append]

theorem eventsFor_nil (n : String) : eventsFor n [] = [] := rfl

theorem eventsFor_cons (n : String) (e : Event) (evs : List Event) :
    eventsFor n (e :: evs) =
      if Event.mname e = n then e :: eventsFor n evs else eventsFor n evs := by
  by_cases h : Event.mname e = n <;> simp [eventsFor, List.filter_cons, h]

theorem effectiveType_seen_eq (d : Option MetricType) (s : MetricType) (v : JValue)
    (t : MetricType) (h : effectiveType d (some s) v = some t) : t = s := by
  cases d with
  | none =>
    simp [effectiveType] at h
    exact h.symm
  | some m =>
    by_cases hms : m = s <;> simp [effectiveType, hms] at h
    exact h.symm

theorem dump_eq (rm : ResolvedMetric) (v : JValue) (seen : Option MetricType)
    (t : MetricType) (evs : List Event) (h : rm.dump v seen = some (t, evs)) :
    evs = (if seen.isNone then [Event.header rm.name t] else []) ++
          [Event.sample rm.name t rm.labels v] ∧
    ∀ s, seen = some s → t = s := by
  unfold ResolvedMetric.dump at h
  cases he : effectiveType rm.metricType seen v with
  | none => rw [he] at h; exact absurd h (by simp)
  | some t2 =>
    rw [he] at h
    by_cases hc : check_value v t2 <;> simp only [hc, if_true, Bool.false_eq_true, if_false,
      Option.some.injEq, Prod.mk.injEq, reduceCtorEq] at h
    obtain ⟨ht2, hevs⟩ := h
    subst ht2
    refine ⟨hevs.symm, ?_⟩
    intro s hs
    subst hs
    exact effectiveType_seen_eq _ _ _ _ he

theorem emitSample_filter_error (fl : List PreparedFilter) (v : JValue) (rm : ResolvedMetric)
    (st : EmitState) (e : String) (hf : applyFilters fl v = .error e) :
    emitSample fl v rm st =
      { st with warnings := st.warnings ++ [(LogLevel.warn, "Error when applying filter: " ++ e)] } := by
  unfold emitSample
  rw [hf]

theorem emitSample_dump_none (fl : List PreparedFilter) (v value : JValue) (rm : ResolvedMetric)
    (st : EmitState) (hf : applyFilters fl v = .ok value)
    (hd : rm.dump value (lookupSeen rm.name st.seen) = none) :
    emitSample fl v rm st =
      { st with warnings := st.warnings ++ [(LogLevel.warn, dumpWarnMsg rm)] } := by
  unfold emitSample
  rw [hf]
  simp only [hd]

theorem emitSample_dump_some (fl : List PreparedFilter) (v value : JValue) (rm : ResolvedMetric)
    (st : EmitState) (t : MetricType) (evs : List Event) (hf : applyFilters fl v = .ok value)
    (hd : rm.dump value (lookupSeen rm.name st.seen) = some (t, evs)) :
    emitSample fl v rm st =
      { st with
        events := st.events ++ evs,
        seen := if (lookupSeen rm.name st.seen).isNone then (rm.name, t) :: st.seen else st.seen } := by
  unfold emitSample
  rw [hf]
  simp only [hd]

theorem typeOk_emitSample (fl : List PreparedFilter) (v : JValue) (rm : ResolvedMetric)
    (st : EmitState) (h : TypeOk st.seen st.events) :
    TypeOk (emitSample fl v rm st).seen (emitSample fl v rm st).events := by
  cases hf : applyFilters fl v with
  | error e => rw [emitSample_filter_error fl v rm st e hf]; exact h
  | ok value =>
    cases hseen : lookupSeen rm.name st.seen with
    | some s =>
      cases hd : rm.dump value (some s) with
      | none =>
        rw [emitSample_dump_none fl v value rm st hf (hseen ▸ hd)]
        exact h
      | some p =>
        obtain ⟨t, evs⟩ := p
        rw [emitSample_dump_some fl v value rm st t evs hf (hseen ▸ hd)]
        obtain ⟨hevs, hts⟩ := dump_eq rm value (some s) t evs hd
        have ht : t = s := hts s rfl
        subst ht
        simp only [Option.isNone_some, Bool.false_eq_true, if_false, List.nil_append] at hevs
        subst hevs
        rw [hseen]
        simp only [Option.isNone_some, Bool.false_eq_true, if_false]
        show TypeOk st.seen (st.events ++ [Event.sample rm.name t rm.labels value])
        intro n
        rcases h n with ⟨hn1, hn2⟩
        constructor
        · intro hnone
          have hne : rm.name ≠ n := by
            intro hEq; rw [hEq, hnone] at hseen; exact Option.noConfusion hseen
          rw [eventsFor_append, hn1 hnone, eventsFor_cons]
          simp [Event.mname, hne, eventsFor_nil]
        · intro t0 ht0
          by_cases hEq : rm.name = n
          · subst hEq
            have ht0t : t0 = t := by rw [hseen] at ht0; exact (Option.some.injEq _ _ ▸ ht0).symm
            subst ht0t
            obtain ⟨ss, hss, hall⟩ := hn2 t0 hseen
            refine ⟨ss ++ [Event.sample rm.name t0 rm.labels value], ?_, ?_⟩
            · rw [eventsFor_append, hss, eventsFor_cons]
              simp [Event.mname, eventsFor_nil]
            · intro e he
              rcases List.mem_append.mp he with h1 | h2
              · exact hall e h1
              · rcases List.mem_singleton.mp h2 with rfl
                exact ⟨rm.labels, value, rfl⟩
          · obtain ⟨ss, hss, hall⟩ := hn2 t0 ht0
            refine ⟨ss, ?_, hall⟩
            rw [eventsFor_append, hss, eventsFor_cons]
            simp [Event.mname, hEq, eventsFor_nil]
    | none =>
      cases hd : rm.dump value none with
      | none =>
        rw [emitSample_dump_none fl v value rm st hf (hseen ▸ hd)]
        exact h
      | some p =>
        obtain ⟨t, evs⟩ := p
        rw [emitSample_dump_some fl v value rm st t evs hf (hseen ▸ hd)]
        obtain ⟨hevs, _⟩ := dump_eq rm value none t evs hd
        simp only [Option.isNone_none, if_true, List.singleton_append] at hevs
        subst hevs
        rw [hseen]
        simp only [Option.isNone_none, if_true]
        show TypeOk ((rm.name, t) :: st.seen)
          (st.events ++ [Event.header rm.name t, Event.sample rm.name t rm.labels value])
        intro n
        constructor
        · intro hnone
          rw [lookupSeen] at hnone
          by_cases hEq : rm.name = n
          · rw [if_pos hEq] at hnone; exact Option.noConfusion hnone
          · rw [if_neg hEq] at hnone
            rcases h n with ⟨hn1, _⟩
            rw [eventsFor_append, hn1 hnone, eventsFor_cons, eventsFor_cons]
            simp [Event.mname, hEq, eventsFor_nil]
        · intro t0 ht0
          rw [lookupSeen] at ht0
          by_cases hEq : rm.name = n
          · rw [if_pos hEq] at ht0
            have ht0t : t0 = t := (Option.some.injEq _ _ ▸ ht0).symm
            subst ht0t
            subst hEq
            rcases h rm.name with ⟨hn1, _⟩
            rw [eventsFor_append, hn1 hseen, eventsFor_cons, eventsFor_cons]
            simp only [Event.mname, if_pos rfl, List.nil_append]
            refine ⟨[Event.sample rm.name t0 rm.labels value], rfl, ?_⟩
            intro e he
            rcases List.mem_singleton.mp he with rfl
            exact ⟨rm.labels, value, rfl⟩
          · rw [if_neg hEq] at ht0
            rcases h n with ⟨_, hn2⟩
            obtain ⟨ss, hss, hall⟩ := hn2 t0 ht0
            refine ⟨ss, ?_, hall⟩
            rw [eventsFor_append, hss, eventsFor_cons, eventsFor_cons]
            simp [Event.mname, hEq, eventsFor_nil]

theorem typeOk_emitAll (fl : List PreparedFilter) (l : List (JValue × ResolvedMetric))
    (st : EmitState) (h : TypeOk st.seen st.events) :
    TypeOk (emitAll fl l st).seen (emitAll fl l st).events := by
  induction l generalizing st with
  | nil => exact h
  | cons p rest ih =>
    obtain ⟨v, rm⟩ := p
    exact ih (emitSample fl v rm st) (typeOk_emitSample fl v rm st h)

theorem resolveIntoAux_seen_events (m : PreparedMetric) (parent : ResolvedMetric)
    (fs : List JMatch) (st : EmitState) :
    (resolveIntoAux m parent fs st).2.seen = st.seen ∧
    (resolveIntoAux m parent fs st).2.events = st.events := by
  induction fs generalizing st with
  | nil => exact ⟨rfl, rfl⟩
  | cons f rest ih =>
    unfold resolveIntoAux
    cases m.resolve f with
    | ok rm => simpa using ih st
    | error e => simpa using ih _

theorem resolveAll_seen_events (m : PreparedMetric) (ps : List (JValue × ResolvedMetric))
    (st : EmitState) :
    (resolveAll m ps st).2.seen = st.seen ∧ (resolveAll m ps st).2.events = st.events := by
  induction ps generalizing st with
  | nil => exact ⟨rfl, rfl⟩
  | cons p rest ih =>
    obtain ⟨pj, pm⟩ := p
    unfold resolveAll
    have h1 := resolveIntoAux_seen_events m pm (JsonSelector.find m.selector pj) st
    have h2 := ih (m.resolve_into pm pj st).2
    unfold PreparedMetric.resolve_into at *
    exact ⟨by rw [h2.1, h1.1], by rw [h2.2, h1.2]⟩

theorem typeOk_processForest_aux (k : Nat) :
    ∀ (ms : List PreparedMetric) (ps : List (JValue × ResolvedMetric)) (st : EmitState),
      sizeOf ms < k → TypeOk st.seen st.events →
      TypeOk (processForest ms ps st).seen (processForest ms ps st).events := by
  induction k with
  | zero => intro ms ps st hsz; exact absurd hsz (Nat.not_lt_zero _)
  | succ k ih =>
    intro ms ps st hsz h
    match ms with
    | [] => rw [processForest]; exact h
    | PreparedMetric.mk sel mt nm np fl lb children :: rest =>
      have hszc : sizeOf children < k := by
        simp only [List.cons.sizeOf_spec, PreparedMetric.mk.sizeOf_spec] at hsz
        omega
      have hszr : sizeOf rest < k := by
        simp only [List.cons.sizeOf_spec, PreparedMetric.mk.sizeOf_spec] at hsz
        omega
      rw [processForest]
      have hres := resolveAll_seen_events (PreparedMetric.mk sel mt nm np fl lb children) ps st
      have hr : TypeOk (resolveAll (PreparedMetric.mk sel mt nm np fl lb children) ps st).2.seen
          (resolveAll (PreparedMetric.mk sel mt nm np fl lb children) ps st).2.events := by
        rw [hres.1, hres.2]; exact h
      apply ih rest _ _ hszr
      by_cases hc : children.isEmpty <;> simp only [hc, if_true, Bool.false_eq_true, if_false]
      · exact typeOk_emitAll _ _ _ hr
      · exact ih children _ _ hszc hr

theorem typeOk_processForest (ms : List PreparedMetric) (ps : List (JValue × ResolvedMetric))
    (st : EmitState) (h : TypeOk st.seen st.events) :
    TypeOk (processForest ms ps st).seen (processForest ms ps st).events :=
  typeOk_processForest_aux (sizeOf ms + 1) ms ps st (Nat.lt_succ_self _) h

theorem strMkData : ∀ s : String, String.mk s.data = s
  | ⟨_⟩ => rfl

theorem strNilAppend : ∀ s : String, "" ++ s = s
  | ⟨d⟩ => congrArg String.mk (List.nil_append d)

theorem autoNameAux_ge2 (rest : List Step) :
    ∀ ix : Nat, 2 ≤ ix → Step.root ∉ rest →
      autoNameAux ix rest = joinTail (rest.map stepToText) := by
  induction rest with
  | nil => intro ix _ _; rfl
  | cons s rest ih =>
    intro ix hix hmem
    have hs : s ≠ Step.root := fun hEq => hmem (hEq ▸ List.mem_cons_self s rest)
    have hrest : Step.root ∉ rest := fun hEq => hmem (List.mem_cons_of_mem s hEq)
    have hgt : ix > 1 := hix
    simp only [autoNameAux, joinTail, List.map_cons]
    rw [if_pos hgt, ih (ix + 1) (by omega) hrest]
    cases s with
    | root => exact absurd rfl hs
    | index i => rfl
    | key k => rfl

theorem lookupL_orInsert (n v k : String) (l : List (String × String)) :
    lookupL k (orInsert n v l) =
      if n = k then some ((lookupL k l).getD v) else lookupL k l := by
  induction l with
  | nil =>
    by_cases hnk : n = k <;> simp [orInsert, lookupL, hnk]
  | cons p rest ih =>
    obtain ⟨k2, w⟩ := p
    by_cases h2n : k2 = n
    · subst h2n
      by_cases h2k : k2 = k
      · subst h2k
        simp [orInsert, lookupL]
      · simp [orInsert, lookupL, h2k]
    · by_cases h2k : k2 = k
      · subst h2k
        have hnk : n ≠ k2 := fun hEq => h2n hEq.symm
        simp [orInsert, lookupL, h2n, hnk]
      · simp [orInsert, lookupL, h2n, h2k, ih]

theorem lookupL_mergeFold (p : List (String × String)) :
    ∀ (c : List (String × String)) (k : String),
      lookupL k (p.foldl (fun acc kv => orInsert kv.1 kv.2 acc) c) =
        match lookupL k c with
        | some v => some v
        | none => lookupL k p := by
  induction p with
  | nil =>
    intro c k
    cases h : lookupL k c <;> simp [lookupL, h]
  | cons q p ih =>
    obtain ⟨n, v⟩ := q
    intro c k
    rw [List.foldl_cons, ih (orInsert n v c) k, lookupL_orInsert]
    by_cases hnk : n = k
    · subst hnk
      cases h : lookupL n c with
      | some w => simp [h]
      | none => simp [h, lookupL]
    · cases h : lookupL k c with
      | some w => simp [hnk, h]
      | none => simp [hnk, h, lookupL, fun hEq => hnk hEq]

theorem lookupL_merge (child parent : ResolvedMetric) (k : String) :
    lookupL k (child.merge_with_parent parent).labels =
      match lookupL k child.labels with
      | some v => some v
      | none => lookupL k parent.labels :=
  lookupL_mergeFold parent.labels child.labels k

/-- C2: for every match of a metric whose name template is absent, the
resolved metric name equals the `_`-join of the match's path steps past
the root: `Key(k)` contributes `k` and `Index(i)` the decimal form of
`i`.  The first conjunct computes the code's auto-derived name on a path
`Root :: rest` (selector matches carry `Root` only in head position, see
`c4_path_index_errors`) and equates it with the spec-side `_`-join; the
second ties it to `PreparedMetric::resolve`: with no name template, a
successfully resolved metric's name is exactly the auto-derived name. -/
theorem c2_auto_name_join :
    (∀ rest : List Step, Step.root ∉ rest →
       autoName (Step.root :: rest) = joinUnderscore (rest.map stepToText)) ∧
    (∀ (m : PreparedMetric) (f : JMatch) (rm : ResolvedMetric),
       m.nameProcessor = none → m.resolve f = .ok rm → rm.name = autoName f.path) := by
  constructor
  · intro rest hmem
    have h0 : autoName (Step.root :: rest) = autoNameAux 1 rest := by
      simp only [autoName, autoNameAux]
      simp only [if_neg (by omega : ¬(0 > 1))]
      exact strNilAppend _
    rw [h0]
    cases rest with
    | nil => rfl
    | cons s rest2 =>
      have hs : s ≠ Step.root := fun hEq => hmem (hEq ▸ List.mem_cons_self s rest2)
      have hrest : Step.root ∉ rest2 := fun hEq => hmem (List.mem_cons_of_mem s hEq)
      simp only [autoNameAux, joinUnderscore, List.map_cons]
      rw [if_neg (by omega : ¬(1 > 1)), strNilAppend]
      rw [autoNameAux_ge2 rest2 2 (by omega) hrest]
      cases s with
      | root => exact absurd rfl hs
      | index i => rfl
      | key k => rfl
  · intro m f rm hnp hres
    unfold PreparedMetric.resolve at hres
    rw [hnp] at hres
    cases hl : PreparedLabels.resolve m.labels f with
    | error e => rw [hl] at hres; exact absurd hres (by simp)
    | ok ls =>
      rw [hl] at hres
      simp only [Option.some.injEq, Except.ok.injEq] at hres
      rw [← hres]

/-- C2 witness: the auto-derived name of the S1 scenario's first match. -/
theorem c2_auto_name_join_witness :
    autoName [Step.root, Step.key "_all", Step.key "total", Step.key "docs", Step.key "count"] =
      joinUnderscore ([Step.key "_all", Step.key "total", Step.key "docs",
        Step.key "count"].map stepToText) :=
  c2_auto_name_join.1 _ (by decide)

/-- C3 counterexample: the claim's descendant clause fails as stated.
With parent labels `{k: v}`, a child that sets no `k`, and a grandchild
that sets `k = w`, the grandchild's sample carries `k = w`, not the
parent's `v`, although the grandchild is a descendant sample of a child
that does not set `k`. -/
theorem c3_counterexample :
    lookupL "k" ((ResolvedMetric.merge_with_parent ⟨"g", none, [("k", "w")]⟩
        (ResolvedMetric.merge_with_parent ⟨"c", none, []⟩
          ⟨"p", none, [("k", "v")]⟩)).labels) = some "w" ∧
      (some "w" : Option String) ≠ some "v" := by
  constructor
  · rfl
  · decide

/-- C3 (amended): in every merge of a child `ResolvedMetric` with its
parent, a key set by the child keeps the child's value and a key absent
in the child takes the parent's value; consequently, along a chain of
descendant merges in which no descendant sets `k` itself, the value of
`k` is preserved — a deeper metric that sets `k` overrides it (see
`c3_counterexample`). -/
theorem c3_label_inheritance :
    (∀ (child parent : ResolvedMetric) (k v : String),
       lookupL k child.labels = some v →
       lookupL k (child.merge_with_parent parent).labels = some v) ∧
    (∀ (child parent : ResolvedMetric) (k : String),
       lookupL k child.labels = none →
       lookupL k (child.merge_with_parent parent).labels = lookupL k parent.labels) ∧
    (∀ (ds : List ResolvedMetric) (b : ResolvedMetric) (k : String),
       (∀ d ∈ ds, lookupL k d.labels = none) →
       lookupL k (ds.foldl (fun acc d => d.merge_with_parent acc) b).labels =
         lookupL k b.labels) := by
  refine ⟨?_, ?_, ?_⟩
  · intro child parent k v h
    rw [lookupL_merge, h]
  · intro child parent k h
    rw [lookupL_merge, h]
  · intro ds
    induction ds with
    | nil => intro b k _; rfl
    | cons d ds ih =>
      intro b k hall
      have hd : lookupL k d.labels = none := hall d (List.mem_cons_self d ds)
      have hds : ∀ x ∈ ds, lookupL k x.labels = none :=
        fun x hx => hall x (List.mem_cons_of_mem d hx)
      rw [List.foldl_cons, ih (d.merge_with_parent b) k hds, lookupL_merge, hd]

/-- C3 witness: a child-set key survives the merge with its parent. -/
theorem c3_label_inheritance_witness :
    lookupL "k" ((ResolvedMetric.merge_with_parent ⟨"c", none, [("k", "x")]⟩
        ⟨"p", none, [("k", "v")]⟩).labels) = some "x" :=
  c3_label_inheritance.1 ⟨"c", none, [("k", "x")]⟩ ⟨"p", none, [("k", "v")]⟩ "k" "x" rfl

/-- C5 counterexample: resolving the modifier names `const` and `eq`
against `Filter::prepare` fails during compilation with an unknown-filter
error, although the claim states they succeed. -/
theorem c5_counterexample :
    Filter.prepare ⟨"const", JValue.num 1⟩ = .error "Unknown filter: const" ∧
    Filter.prepare ⟨"eq", JValue.num 1⟩ = .error "Unknown filter: eq" := by
  constructor <;> rfl

/-- C5 (amended): `Filter::prepare` resolves exactly the names `mul`,
`multiply`, `div`, `divide`; every other name — including `const` and
`eq` — fails with `Unknown filter: <name>`.  The constructors
`Const::create` and `Equal::create` do exist in the filter module and
construct the fixed-value (respectively boolean-equality) filter from a
scalar argument, but `Filter::prepare` never references them. -/
theorem c5_filter_registry :
    (∀ args, Filter.prepare ⟨"mul", args⟩ = Multiply.create args) ∧
    (∀ args, Filter.prepare ⟨"multiply", args⟩ = Multiply.create args) ∧
    (∀ args, Filter.prepare ⟨"div", args⟩ = Divide.create args) ∧
    (∀ args, Filter.prepare ⟨"divide", args⟩ = Divide.create args) ∧
    (∀ (nm : String) args, nm ≠ "mul" → nm ≠ "multiply" → nm ≠ "div" → nm ≠ "divide" →
       Filter.prepare ⟨nm, args⟩ = .error ("Unknown filter: " ++ nm)) ∧
    (∀ v, isScalar v = true → Const.create v = .ok (PreparedFilter.const v)) ∧
    (∀ v, isScalar v = true → Equal.create v = .ok (PreparedFilter.equal v)) := by
  refine ⟨?_, ?_, ?_, ?_, ?_, ?_, ?_⟩
  · intro args; rfl
  · intro args; rfl
  · intro args; rfl
  · intro args; rfl
  · intro nm args h1 h2 h3 h4
    unfold Filter.prepare
    rw [if_neg (by simp [h1, h2]), if_neg (by simp [h3, h4])]
  · intro v hv
    cases v <;> simp_all [isScalar, Const.create, single_scalar_arg]
  · intro v hv
    cases v <;> simp_all [isScalar, Equal.create, single_scalar_arg]

/-- C5 witness: the name `const` is outside the registered set, hence
fails with the unknown-filter error, while its constructor succeeds on a
scalar argument. -/
theorem c5_filter_registry_witness :
    Filter.prepare ⟨"const", JValue.str "x"⟩ = .error ("Unknown filter: " ++ "const") ∧
    Const.create (JValue.str "x") = .ok (PreparedFilter.const (JValue.str "x")) :=
  ⟨c5_filter_registry.2.2.2.2.1 "const" (JValue.str "x")
      (by decide) (by decide) (by decide) (by decide),
   c5_filter_registry.2.2.2.2.2.1 (JValue.str "x") rfl⟩

/-- C10: applying the `div` filter to any JSON number never returns an
error, even with divisor 0: the f64 division by zero yields a non-finite
result, `Value::from` converts every non-finite f64 to JSON null, a null
value satisfies no metric-type check, so `ResolvedMetric::dump` drops the
sample for every declared or seen type, and the leaf-emission loop then
records a warning instead of emitting. -/
theorem c10_div_zero_null_dropped :
    (∀ den q : Rat, ∃ v, PreparedFilter.apply (PreparedFilter.divide den) (JValue.num q) = .ok v) ∧
    (∀ q : Rat, F.isFinite (f64Div q 0) = false) ∧
    (∀ q : Rat, PreparedFilter.apply (PreparedFilter.divide 0) (JValue.num q) = .ok JValue.null) ∧
    (∀ t, check_value JValue.null t = false) ∧
    (∀ (rm : ResolvedMetric) (seen : Option MetricType), rm.dump JValue.null seen = none) ∧
    (∀ (q : Rat) (rm : ResolvedMetric) (st : EmitState),
       emitSample [PreparedFilter.divide 0] (JValue.num q) rm st =
         { st with warnings := st.warnings ++ [(LogLevel.warn, dumpWarnMsg rm)] }) := by
  have hdivz : ∀ q : Rat, valueFromF (f64Div q 0) = JValue.null := by
    intro q
    unfold f64Div
    rw [if_pos rfl]
    by_cases h0 : q = 0
    · rw [if_pos h0]; rfl
    · rw [if_neg h0]
      by_cases hp : q > 0
      · rw [if_pos hp]; rfl
      · rw [if_neg hp]; rfl
  have hnull : ∀ (rm : ResolvedMetric) (seen : Option MetricType),
      rm.dump JValue.null seen = none := by
    intro rm seen
    unfold ResolvedMetric.dump
    cases he : effectiveType rm.metricType seen JValue.null with
    | none => rfl
    | some t => simp [show check_value JValue.null t = false from rfl]
  refine ⟨?_, ?_, ?_, ?_, hnull, ?_⟩
  · intro den q
    exact ⟨valueFromF (f64Div q den), rfl⟩
  · intro q
    unfold f64Div
    rw [if_pos rfl]
    by_cases h0 : q = 0
    · rw [if_pos h0]; rfl
    · rw [if_neg h0]
      by_cases hp : q > 0
      · rw [if_pos hp]; rfl
      · rw [if_neg hp]; rfl
  · intro q
    show Except.ok (valueFromF (f64Div q 0)) = _
    rw [hdivz q]
  · intro t; rfl
  · intro q rm st
    have hfl : applyFilters [PreparedFilter.divide 0] (JValue.num q) = .ok JValue.null := by
      show (match PreparedFilter.apply (PreparedFilter.divide 0) (JValue.num q) with
            | .error e => Except.error e
            | .ok v2 => applyFilters [] v2) = Except.ok JValue.null
      rw [show PreparedFilter.apply (PreparedFilter.divide 0) (JValue.num q) =
            .ok (valueFromF (f64Div q 0)) from rfl, hdivz q]
      rfl
    rw [emitSample_dump_none _ _ _ rm st hfl (hnull rm _)]

/-- C1: within one emission of `PreparedMetrics::process`, the event
stream for every metric name `n` is either empty or consists of exactly
one `# TYPE n t` header — its first line — followed only by samples of
that same type `t`; and a sample whose declared type disagrees with the
type already recorded for its name is dropped (the state's events are
unchanged) while a warning is recorded. -/
theorem c1_type_header_consistency :
    (∀ (ms : List PreparedMetric) (root : ResolvedMetric) (json : JValue) (n : String),
       eventsFor n (PreparedMetrics.process ms root json).events = [] ∨
       ∃ t ss, eventsFor n (PreparedMetrics.process ms root json).events =
           Event.header n t :: ss ∧
         ∀ e ∈ ss, ∃ ls v, e = Event.sample n t ls v) ∧
    (∀ (v : JValue) (rm : ResolvedMetric) (st : EmitState) (m t : MetricType),
       rm.metricType = some m → lookupSeen rm.name st.seen = some t → m ≠ t →
       emitSample [] v rm st =
         { st with warnings := st.warnings ++ [(LogLevel.warn, dumpWarnMsg rm)] }) := by
  constructor
  · intro ms root json n
    have h0 : TypeOk ([] : List (String × MetricType)) ([] : List Event) := by
      intro n
      exact ⟨fun _ => rfl, fun t ht => absurd ht (by simp [lookupSeen])⟩
    have h := typeOk_processForest ms [(json, root)] ⟨[], [], []⟩ h0
    cases hl : lookupSeen n (PreparedMetrics.process ms root json).seen with
    | none => exact Or.inl ((h n).1 hl)
    | some t =>
      obtain ⟨ss, hss, hall⟩ := (h n).2 t hl
      exact Or.inr ⟨t, ss, hss, hall⟩
  · intro v rm st m t hm hseen hne
    have hd : rm.dump v (some t) = none := by
      unfold ResolvedMetric.dump effectiveType
      rw [hm]
      simp [hne]
    exact emitSample_dump_none [] v v rm st rfl (hseen ▸ hd)

/-- C1 witness: a sample declared `counter` for a name already recorded
as `gauge` is dropped with a warning. -/
theorem c1_type_header_consistency_witness :
    emitSample [] (JValue.num 1) ⟨"m", some MetricType.counter, []⟩
        ⟨[("m", MetricType.gauge)], [], []⟩ =
      { seen := [("m", MetricType.gauge)], events := [],
        warnings := [(LogLevel.warn, dumpWarnMsg ⟨"m", some MetricType.counter, []⟩)] } := by
  have h := c1_type_header_consistency.2 (JValue.num 1) ⟨"m", some MetricType.counter, []⟩
    ⟨[("m", MetricType.gauge)], [], []⟩ MetricType.counter MetricType.gauge rfl rfl (by decide)
  simpa using h

/-- C6: the repository's own test `test_selecting_root_node` (and the
spec's scenario S3) require the bracketed placeholder
`$\x7b.cluster_name\x7d` to compile to a selector placeholder, but the
template parser's `selector` rule starts with `tag("$")`, so a body
beginning with `'.'` fails the placeholder parse and the whole template
fails to compile. -/
theorem c6_dot_selector_rejected :
    pvarPlaceholder ("$\x7b.cluster_name\x7d").data = none ∧
    create_from "$\x7b.cluster_name\x7d" = .error () := by
  constructor <;> rfl

/-- C4: evaluating a path-index placeholder `i` on a match whose path has
no step at position `i + 1` fails with `Invalid path index: i`, and a
root step there fails with `Root element is not supported`; matches
produced by a selector carry `Root` only as their first step, so at
extraction time the root failure cannot occur and every such failure
carries the `Invalid path index: i` text; in `resolve_into` each failing
match contributes exactly one `Warn` with the error text and is skipped,
the remaining matches are resolved in order, and the (total) traversal
never aborts; a failing name template propagates its error to `resolve`. -/
theorem c4_path_index_errors :
    (∀ (i : Nat) (f : JMatch) (pre post : List PreparedPlaceholder) (s : String),
       TemplateProcessor.apply pre f = .ok s → f.path.get? (i + 1) = none →
       TemplateProcessor.apply (pre ++ PreparedPlaceholder.varIx i :: post) f =
         .error ("Invalid path index: " ++ toString i)) ∧
    (∀ (i : Nat) (f : JMatch) (pre post : List PreparedPlaceholder) (s : String),
       TemplateProcessor.apply pre f = .ok s → f.path.get? (i + 1) = some Step.root →
       TemplateProcessor.apply (pre ++ PreparedPlaceholder.varIx i :: post) f =
         .error "Root element is not supported") ∧
    (∀ (sel : List SelOp) (json : JValue) (f : JMatch), f ∈ JsonSelector.find sel json →
       ∃ rest, f.path = Step.root :: rest ∧ Step.root ∉ rest) ∧
    (∀ (rest : List Step) (i : Nat), Step.root ∉ rest →
       (Step.root :: rest).get? (i + 1) ≠ some Step.root) ∧
    (∀ (m : PreparedMetric) (parent : ResolvedMetric) (founds : List JMatch) (st : EmitState),
       (resolveIntoAux m parent founds st).1 =
         founds.filterMap (fun f =>
           match m.resolve f with
           | .ok rm => some (f.value, rm.merge_with_parent parent)
           | .error _ => none) ∧
       (resolveIntoAux m parent founds st).2 =
         { st with warnings := st.warnings ++ founds.filterMap (fun f =>
             match m.resolve f with
             | .ok _ => none
             | .error e => some (LogLevel.warn, e)) }) ∧
    (∀ (m : PreparedMetric) (np : List PreparedPlaceholder) (f : JMatch) (e : String),
       m.nameProcessor = some np → TemplateProcessor.apply np f = .error e →
       m.resolve f = .error e) := by
  have happly : ∀ (pre : List PreparedPlaceholder) (f : JMatch) (s : String)
      (rest : List PreparedPlaceholder) (e : String),
      TemplateProcessor.apply pre f = .ok s → TemplateProcessor.apply rest f = .error e →
      TemplateProcessor.apply (pre ++ rest) f = .error e := by
    intro pre
    induction pre with
    | nil => intro f s rest e _ h2; simpa using h2
    | cons p pre ih =>
      intro f s rest e h1 h2
      rw [TemplateProcessor.apply] at h1
      cases hn : applyNode p f with
      | error e2 => rw [hn] at h1; exact absurd h1 (by simp)
      | ok t =>
        rw [hn] at h1
        cases hr : TemplateProcessor.apply pre f with
        | error e2 => rw [hr] at h1; exact absurd h1 (by simp)
        | ok s2 =>
          rw [List.cons_append, TemplateProcessor.apply, hn, ih f s2 rest e hr h2]
  refine ⟨?_, ?_, ?_, ?_, ?_, ?_⟩
  · intro i f pre post s h1 h2
    apply happly pre f s _ _ h1
    rw [TemplateProcessor.apply]
    simp only [applyNode, h2]
  · intro i f pre post s h1 h2
    apply happly pre f s _ _ h1
    rw [TemplateProcessor.apply]
    simp only [applyNode, h2]
  · have haux : ∀ (ops : List SelOp) (v : JValue) (p : List Step) (f : JMatch),
        f ∈ selFindAux ops v p → ∃ suffix, f.path = p ++ suffix ∧ Step.root ∉ suffix := by
      intro ops
      induction ops with
      | nil =>
        intro v p f hf
        rcases List.mem_singleton.mp hf with rfl
        exact ⟨[], by simp, by simp⟩
      | cons op ops ih =>
        intro v p f hf
        cases op with
        | key k =>
          cases v with
          | obj kvs =>
            rw [selFindAux, List.mem_flatMap] at hf
            obtain ⟨kv, _, hf2⟩ := hf
            obtain ⟨suffix, hp, hmem⟩ := ih kv.2 (p ++ [Step.key k]) f hf2
            refine ⟨Step.key k :: suffix, by simpa using hp, ?_⟩
            intro hc
            rcases List.mem_cons.mp hc with h | h
            · exact Step.noConfusion h
            · exact hmem h
          | null => exact absurd hf (by simp [selFindAux])
          | bool b => exact absurd hf (by simp [selFindAux])
          | num q => exact absurd hf (by simp [selFindAux])
          | str s => exact absurd hf (by simp [selFindAux])
          | arr xs => exact absurd hf (by simp [selFindAux])
        | index i =>
          cases v with
          | arr xs =>
            rw [selFindAux] at hf
            cases hx : xs.get? i with
            | some x =>
              rw [hx] at hf
              obtain ⟨suffix, hp, hmem⟩ := ih x (p ++ [Step.index i]) f hf
              refine ⟨Step.index i :: suffix, by simpa using hp, ?_⟩
              intro hc
              rcases List.mem_cons.mp hc with h | h
              · exact Step.noConfusion h
              · exact hmem h
            | none => rw [hx] at hf; exact absurd hf (by simp)
          | null => exact absurd hf (by simp [selFindAux])
          | bool b => exact absurd hf (by simp [selFindAux])
          | num q => exact absurd hf (by simp [selFindAux])
          | str s => exact absurd hf (by simp [selFindAux])
          | obj kvs => exact absurd hf (by simp [selFindAux])
        | wildcard =>
          rw [selFindAux, List.mem_flatMap] at hf
          obtain ⟨sv, hsv, hf2⟩ := hf
          obtain ⟨suffix, hp, hmem⟩ := ih sv.2 (p ++ [sv.1]) f hf2
          have hsr : sv.1 ≠ Step.root := by
            cases v with
            | obj kvs =>
              rw [childEntries, List.mem_map] at hsv
              obtain ⟨kv, _, hkv⟩ := hsv
              rw [← hkv]
              exact fun h => Step.noConfusion h
            | arr xs =>
              rw [childEntries, List.mem_map] at hsv
              obtain ⟨iv, _, hiv⟩ := hsv
              rw [← hiv]
              exact fun h => Step.noConfusion h
            | null => exact absurd hsv (by simp [childEntries])
            | bool b => exact absurd hsv (by simp [childEntries])
            | num q => exact absurd hsv (by simp [childEntries])
            | str s => exact absurd hsv (by simp [childEntries])
          refine ⟨sv.1 :: suffix, by simpa using hp, ?_⟩
          intro hc
          rcases List.mem_cons.mp hc with h | h
          · exact hsr h.symm
          · exact hmem h
    intro sel json f hf
    obtain ⟨suffix, hp, hmem⟩ := haux sel json [Step.root] f hf
    exact ⟨suffix, by simpa using hp, hmem⟩
  · intro rest i hmem hc
    have : (Step.root :: rest).get? (i + 1) = rest.get? i := rfl
    rw [this] at hc
    exact hmem (List.get?_mem hc)
  · intro m parent founds
    induction founds with
    | nil =>
      intro st
      exact ⟨rfl, by simp [resolveIntoAux]⟩
    | cons f rest ih =>
      intro st
      cases hr : m.resolve f with
      | ok rm =>
        have h1 := ih st
        constructor
        · rw [resolveIntoAux, hr, List.filterMap_cons]
          simp only [hr, h1.1]
        · rw [resolveIntoAux, hr, List.filterMap_cons]
          simp only [hr, h1.2]
      | error e =>
        have h1 := ih { st with warnings := st.warnings ++ [(LogLevel.warn, e)] }
        constructor
        · rw [resolveIntoAux, hr, List.filterMap_cons]
          simp only [hr, h1.1]
        · rw [resolveIntoAux, hr, List.filterMap_cons]
          simp only [hr, h1.2, List.append_assoc, List.singleton_append]
  · intro m np f e hnp happ
    unfold PreparedMetric.resolve
    rw [hnp]
    simp only [happ]

/-- C4 witness: the S7 scenario — placeholder `$4` on a four-step path
fails with `Invalid path index: 4`. -/
theorem c4_path_index_errors_witness :
    TemplateProcessor.apply ([] ++ PreparedPlaceholder.varIx 4 :: [])
        ⟨JValue.null, [Step.root, Step.key "_all", Step.key "primaries",
          Step.key "docs", Step.key "count"]⟩ =
      .error ("Invalid path index: " ++ toString 4) :=
  c4_path_index_errors.1 4
    ⟨JValue.null, [Step.root, Step.key "_all", Step.key "primaries",
      Step.key "docs", Step.key "count"]⟩ [] [] "" rfl rfl

theorem escapeChars_id (l : List Char)
    (h : ∀ c ∈ l, (c = '\\' || c = '"' || c = '\n') = false) : escapeChars l = l := by
  induction l with
  | nil => rfl
  | cons c rest ih =>
    have hc := h c (List.mem_cons_self c rest)
    simp only [Bool.or_eq_false_iff, decide_eq_false_iff_not] at hc
    rw [escapeChars, if_neg hc.1.2, if_neg hc.2, if_neg hc.1.1,
      ih (fun x hx => h x (List.mem_cons_of_mem c hx))]
    rfl

theorem safeValue_eq_escape (s : String) : safeValue s = escape s := by
  unfold safeValue
  cases h : shouldEscapeCount s with
  | succ n => rfl
  | zero =>
    have hall : ∀ c ∈ s.data, (c = '\\' || c = '"' || c = '\n') = false := by
      unfold shouldEscapeCount at h
      intro c hc
      rcases List.countP_eq_zero.mp h c hc with h2
      exact Bool.not_eq_true _ ▸ by simpa using h2
    show s = escape s
    rw [escape, escapeChars_id s.data hall, strMkData]

theorem unescapeChars_escapeChars (l : List Char) : unescapeChars (escapeChars l) = l := by
  induction l with
  | nil => rfl
  | cons c rest ih =>
    by_cases h1 : c = '"'
    · subst h1; simp [escapeChars, unescapeChars, ih]
    · by_cases h2 : c = '\n'
      · subst h2; simp [escapeChars, unescapeChars, ih]
      · by_cases h3 : c = '\\'
        · subst h3; simp [escapeChars, unescapeChars, ih]
        · rw [escapeChars, if_neg h1, if_neg h2, if_neg h3, List.singleton_append,
            unescapeChars.eq_def]
          simp only [h3, if_false, ih]

theorem insertLabel_mem (p : String × String) (n v : String) :
    ∀ l : List (String × String), p ∈ insertLabel n v l → p = (n, v) ∨ p ∈ l := by
  intro l
  induction l with
  | nil => intro h; exact Or.inl (List.mem_singleton.mp h)
  | cons q rest ih =>
    obtain ⟨k, w⟩ := q
    intro h
    by_cases hk : k = n
    · rw [insertLabel, if_pos hk] at h
      rcases List.mem_cons.mp h with h | h
      · exact Or.inl h
      · exact Or.inr (List.mem_cons_of_mem _ h)
    · rw [insertLabel, if_neg hk] at h
      rcases List.mem_cons.mp h with h | h
      · exact Or.inr (h ▸ List.mem_cons_self _ _)
      · rcases ih h with h | h
        · exact Or.inl h
        · exact Or.inr (List.mem_cons_of_mem _ h)

theorem labelsResolveAux_escaped (labels : List (String × List PreparedPlaceholder)) (f : JMatch) :
    ∀ (acc m : List (String × String)), (∀ p ∈ acc, ∃ s, p.2 = escape s) →
      labelsResolveAux labels f acc = .ok m → ∀ p ∈ m, ∃ s, p.2 = escape s := by
  induction labels with
  | nil =>
    intro acc m hacc h
    rw [labelsResolveAux] at h
    have hm : acc = m := by simpa using h
    subst hm
    exact hacc
  | cons q rest ih =>
    obtain ⟨n, tp⟩ := q
    intro acc m hacc h
    rw [labelsResolveAux] at h
    cases ht : TemplateProcessor.apply tp f with
    | error e => rw [ht] at h; exact absurd h (by simp)
    | ok v =>
      rw [ht] at h
      refine ih (insertLabel n (safeValue v) acc) m ?_ h
      intro p hp
      rcases insertLabel_mem p n (safeValue v) acc hp with h2 | h2
      · exact ⟨v, by rw [h2, safeValue_eq_escape]⟩
      · exact hacc p h2

/-- C8: for any string `s` produced by a label-value template, the stored
label value equals `escape(s)` (the conditional in
`PreparedLabels::resolve` only skips the copy when nothing needs
escaping), `escape` is inverted by `unescape`, and the dump step writes
the stored value verbatim between quotes — so the escaping is applied
exactly once, at resolution time; every value held by a resolved label
map is the escape of some string. -/
theorem c8_label_escape :
    (∀ s : String, safeValue s = escape s) ∧
    (∀ s : String, unescape (escape s) = s) ∧
    (∀ s : String, dump_label_value (safeValue s) = "\"" ++ escape s ++ "\"") ∧
    (∀ (labels : List (String × List PreparedPlaceholder)) (f : JMatch)
       (m : List (String × String)) (p : String × String),
       PreparedLabels.resolve labels f = .ok m → p ∈ m → ∃ s, p.2 = escape s) := by
  refine ⟨safeValue_eq_escape, ?_, ?_, ?_⟩
  · intro s
    rw [unescape, escape]
    show String.mk (unescapeChars (escapeChars s.data)) = s
    rw [unescapeChars_escapeChars, strMkData]
  · intro s
    rw [dump_label_value, safeValue_eq_escape]
  · intro labels f m p h hp
    exact labelsResolveAux_escaped labels f [] m (by simp) h p hp

/-- C8 witness: a label template producing `a"b` stores `escape` of it. -/
theorem c8_label_escape_witness :
    ∃ s, (("l", "a\\\"b") : String × String).2 = escape s :=
  c8_label_escape.2.2.2 [("l", [PreparedPlaceholder.text "a\"b"])] ⟨JValue.null, []⟩
    [("l", "a\\\"b")] ("l", "a\\\"b") rfl (List.mem_singleton.mpr rfl)

theorem takeWhile_all {α : Type} (p : α → Bool) :
    ∀ l : List α, (∀ c ∈ l, p c = true) → l.takeWhile p = l := by
  intro l
  induction l with
  | nil => intro _; rfl
  | cons c rest ih =>
    intro h
    rw [List.takeWhile_cons, if_pos (h c (List.mem_cons_self c rest)),
      ih (fun x hx => h x (List.mem_cons_of_mem c hx))]

theorem dropWhile_all {α : Type} (p : α → Bool) :
    ∀ l : List α, (∀ c ∈ l, p c = true) → l.dropWhile p = [] := by
  intro l
  induction l with
  | nil => intro _; rfl
  | cons c rest ih =>
    intro h
    rw [List.dropWhile_cons, if_pos (h c (List.mem_cons_self c rest)),
      ih (fun x hx => h x (List.mem_cons_of_mem c hx))]

theorem takeWhile_append_stop {α : Type} (p : α → Bool) (x : α) (r : List α) :
    ∀ l : List α, (∀ c ∈ l, p c = true) → p x = false →
      (l ++ x :: r).takeWhile p = l := by
  intro l
  induction l with
  | nil => intro _ hx; simp [List.takeWhile_cons, hx]
  | cons c rest ih =>
    intro h hx
    rw [List.cons_append, List.takeWhile_cons, if_pos (h c (List.mem_cons_self c rest)),
      ih (fun y hy => h y (List.mem_cons_of_mem c hy)) hx]

theorem dropWhile_append_stop {α : Type} (p : α → Bool) (x : α) (r : List α) :
    ∀ l : List α, (∀ c ∈ l, p c = true) → p x = false →
      (l ++ x :: r).dropWhile p = x :: r := by
  intro l
  induction l with
  | nil => intro _ hx; simp [List.dropWhile_cons, hx]
  | cons c rest ih =>
    intro h hx
    rw [List.cons_append, List.dropWhile_cons, if_pos (h c (List.mem_cons_self c rest)),
      ih (fun y hy => h y (List.mem_cons_of_mem c hy)) hx]

theorem ptext_dollar (l : List Char) : ptext ('$' :: l) = none := by
  rw [ptext]
  simp [List.takeWhile_cons]

theorem pvarSimple_dollar_brace (cs : List Char) : pvarSimple ('$' :: '{' :: cs) = none := by
  have h : pvarIx ('{' :: cs) = none := by
    rw [pvarIx, puint]
    simp [List.takeWhile_cons, show Char.isDigit '{' = false from rfl]
  rw [pvarSimple, h]

theorem pvar_none (b : List Char)
    (h : ∀ c, b.head? = some c → c.isDigit = false ∧ c ≠ '$') : pvar b = none := by
  have h1 : pvarIx b = none := by
    cases b with
    | nil => rfl
    | cons c tail =>
      have hc := (h c rfl).1
      rw [pvarIx, puint]
      simp [List.takeWhile_cons, hc]
  have h2 : pselector b = none := by
    cases b with
    | nil => rfl
    | cons c tail =>
      have hc := (h c rfl).2
      rw [pselector, if_neg]
      simp only [List.head?_cons, Option.some.injEq]
      exact hc
  rw [pvar, h1, pvarIdent, h2]

theorem paltP_dollar_brace_none (cs : List Char)
    (h : pvarPlaceholder ('$' :: '{' :: cs) = none) : paltP ('$' :: '{' :: cs) = none := by
  rw [paltP, h, pvarSimple_dollar_brace, ptext_dollar]

theorem swpLoop_none (fuel : Nat) (cs : List Char) (h : paltP cs = none) :
    swpLoop fuel cs = (cs, []) := by
  cases fuel with
  | zero => rfl
  | succ f => rw [swpLoop, h]

theorem string_with_placeholders_none (cs : List Char) (h : paltP cs = none) :
    string_with_placeholders cs = none := by
  rw [string_with_placeholders, swpLoop_none _ _ h]

theorem createFromChars_none (cs : List Char) (hne : cs ≠ []) (h : paltP cs = none) :
    createFromChars cs = .error () := by
  rw [createFromChars, if_neg (by simpa [List.isEmpty_iff] using hne),
    string_with_placeholders_none cs h]

theorem strDataAppend : ∀ a b : String, (a ++ b).data = a.data ++ b.data
  | ⟨_⟩, ⟨_⟩ => rfl

theorem pvarPlaceholder_no_close (cs : List Char) (h : '}' ∉ cs) :
    pvarPlaceholder ('$' :: '{' :: cs) = none := by
  cases cs with
  | nil => rfl
  | cons c cs2 =>
    have hall : ∀ x ∈ c :: cs2, (fun y => decide (y ≠ '}')) x = true := by
      intro x hx
      simp only [decide_eq_true_eq]
      exact fun hEq => h (hEq ▸ hx)
    have ht : (c :: cs2).takeWhile (fun y => decide (y ≠ '}')) = c :: cs2 :=
      takeWhile_all _ _ hall
    have hd : (c :: cs2).dropWhile (fun y => decide (y ≠ '}')) = [] :=
      dropWhile_all _ _ hall
    rw [pvarPlaceholder]
    simp only [ht, hd]
    rfl

theorem pvarPlaceholder_ne_dollar (c : Char) (l : List Char) (h : c ≠ '$') :
    pvarPlaceholder (c :: l) = none := by
  rw [pvarPlaceholder.eq_def]
  split
  · rename_i cs1 heq
    injection heq with h1 _
    exact absurd h1 h
  · rfl

theorem pvarSimple_ne_dollar (c : Char) (l : List Char) (h : c ≠ '$') :
    pvarSimple (c :: l) = none := by
  rw [pvarSimple.eq_def]
  split
  · rename_i cs1 heq
    injection heq with h1 _
    exact absurd h1 h
  · rfl

theorem ptext_prefix (pre rest2 : List Char) (hne : pre ≠ []) (hd : '$' ∉ pre) :
    ptext (pre ++ '$' :: rest2) = some ('$' :: rest2, Placeholder.text (String.mk pre)) := by
  have hall : ∀ x ∈ pre, (fun y => decide (y ≠ '$')) x = true := by
    intro x hx
    simp only [decide_eq_true_eq]
    exact fun hEq => hd (hEq ▸ hx)
  have hstop : (fun y => decide (y ≠ '$')) '$' = false := by simp
  have ht : (pre ++ '$' :: rest2).takeWhile (fun y => decide (y ≠ '$')) = pre :=
    takeWhile_append_stop _ _ _ pre hall hstop
  have hdw : (pre ++ '$' :: rest2).dropWhile (fun y => decide (y ≠ '$')) = '$' :: rest2 :=
    dropWhile_append_stop _ _ _ pre hall hstop
  rw [ptext]
  simp only [ht, hdw]
  rw [if_neg (by simpa [List.isEmpty_iff] using hne)]

theorem paltP_literal_prefix (pre rest2 : List Char) (hne : pre ≠ []) (hd : '$' ∉ pre) :
    paltP (pre ++ '$' :: rest2) = some ('$' :: rest2, Placeholder.text (String.mk pre)) := by
  obtain ⟨p0, pre2, rfl⟩ : ∃ p0 pre2, pre = p0 :: pre2 := by
    cases pre with
    | nil => exact absurd rfl hne
    | cons a b => exact ⟨a, b, rfl⟩
  have hp0 : p0 ≠ '$' := fun hEq => hd (hEq ▸ List.mem_cons_self _ _)
  rw [List.cons_append]
  simp only [paltP, pvarPlaceholder_ne_dollar p0 _ hp0, pvarSimple_ne_dollar p0 _ hp0]
  simpa [List.cons_append] using ptext_prefix (p0 :: pre2) rest2 hne hd

theorem createFromChars_literal_prefix (pre cs : List Char) (hne : pre ≠ [])
    (hd : '$' ∉ pre) (hc : '}' ∉ cs) :
    createFromChars (pre ++ '$' :: '{' :: cs) =
      .ok [PreparedPlaceholder.text (String.mk pre)] := by
  have hpalt : paltP (pre ++ '$' :: '{' :: cs) =
      some ('$' :: '{' :: cs, Placeholder.text (String.mk pre)) :=
    paltP_literal_prefix pre ('{' :: cs) hne hd
  have hpalt2 : paltP ('$' :: '{' :: cs) = none :=
    paltP_dollar_brace_none cs (pvarPlaceholder_no_close cs hc)
  have hlt : ('$' :: '{' :: cs).length < (pre ++ '$' :: '{' :: cs).length := by
    have hp : 0 < pre.length := List.length_pos.mpr hne
    simp [List.length_append]
    omega
  have hswp : swpLoop ((pre ++ '$' :: '{' :: cs).length + 1) (pre ++ '$' :: '{' :: cs) =
      ('$' :: '{' :: cs, [Placeholder.text (String.mk pre)]) := by
    rw [swpLoop, hpalt]
    simp only [if_pos hlt, swpLoop_none _ _ hpalt2]
  have hstr : string_with_placeholders (pre ++ '$' :: '{' :: cs) =
      some ('$' :: '{' :: cs, [Placeholder.text (String.mk pre)]) := by
    rw [string_with_placeholders, hswp]
  rw [createFromChars, if_neg (by simp [List.isEmpty_iff]), hstr]
  rfl

/-- C7 counterexample: the input `a$\x7b` contains an unterminated
`$\x7b`, yet the template compiles successfully — `many1` parses the
literal `a`, `create_from` keeps only the parsed prefix, silently drops
the unconsumed invalid tail, and the prepared-placeholder phase succeeds
on the literal. -/
theorem c7_counterexample : create_from "a$\x7b" = .ok [PreparedPlaceholder.text "a"] := rfl

/-- C7 (amended): template compilation fails for every input that begins
with an unterminated `$\x7b` or with a `$\x7b...\x7d` whose
(left-trimmed, possibly empty) body starts neither with a digit nor with
`'$'` (so the body parses neither as uint nor as a selector); an invalid
construct appearing after at least one parsed token does not by itself
fail compilation — the parser keeps only the parsed prefix and silently
drops the input from the first unparsable position on: in particular any
nonempty literal text followed by an unterminated `$\x7b` compiles to
just that literal.  (A template whose kept prefix holds a selector
placeholder can still fail for a different reason, in
`PreparedPlaceholder::create_from` via the jsonpath expression parse.) -/
theorem c7_template_syntax_failure :
    (∀ cs : List Char, '}' ∉ cs → createFromChars ('$' :: '{' :: cs) = .error ()) ∧
    (∀ b r : List Char, '}' ∉ b →
       (∀ c, (b.dropWhile isWsChar).head? = some c → c.isDigit = false ∧ c ≠ '$') →
       createFromChars ('$' :: '{' :: (b ++ '}' :: r)) = .error ()) ∧
    (∀ s : String, '}' ∉ s.data → create_from ("$\x7b" ++ s) = .error ()) ∧
    (∀ pre cs : List Char, pre ≠ [] → '$' ∉ pre → '}' ∉ cs →
       createFromChars (pre ++ '$' :: '{' :: cs) =
         .ok [PreparedPlaceholder.text (String.mk pre)]) := by
  have hA : ∀ cs : List Char, '}' ∉ cs → createFromChars ('$' :: '{' :: cs) = .error () := by
    intro cs h
    exact createFromChars_none _ (by simp)
      (paltP_dollar_brace_none cs (pvarPlaceholder_no_close cs h))
  refine ⟨hA, ?_, ?_, createFromChars_literal_prefix⟩
  · intro b r hclose hhead
    have hall : ∀ x ∈ b, (fun y => decide (y ≠ '}')) x = true := by
      intro x hx
      simp only [decide_eq_true_eq]
      exact fun hEq => hclose (hEq ▸ hx)
    have hstop : (fun y => decide (y ≠ '}')) '}' = false := by simp
    have ht : (b ++ '}' :: r).takeWhile (fun y => decide (y ≠ '}')) = b :=
      takeWhile_append_stop _ _ _ _ hall hstop
    have hd : (b ++ '}' :: r).dropWhile (fun y => decide (y ≠ '}')) = '}' :: r :=
      dropWhile_append_stop _ _ _ _ hall hstop
    have hws : wsVar b = none := by
      rw [wsVar, pvar_none (b.dropWhile isWsChar) ?_]
      intro c hc
      exact hhead c hc
    have hvp : pvarPlaceholder ('$' :: '{' :: (b ++ '}' :: r)) = none := by
      rw [pvarPlaceholder]
      simp only [ht, hd]
      by_cases hb : b = []
      · subst hb
        rfl
      · rw [if_neg (by simpa [List.isEmpty_iff] using hb), hws]
    exact createFromChars_none _ (by simp) (paltP_dollar_brace_none _ hvp)
  · intro s h
    have hdata : ("$\x7b" ++ s).data = '$' :: '{' :: s.data := by
      rw [strDataAppend]
      rfl
    rw [create_from, hdata]
    exact hA s.data h

/-- C7 witness: an input that begins with an unterminated `$\x7b` fails
template compilation; a literal followed by an unterminated `$\x7b`
compiles to just the literal. -/
theorem c7_template_syntax_failure_witness :
    createFromChars ['$', '{', 'a'] = .error () ∧
    createFromChars (['a'] ++ '$' :: '{' :: ['b']) =
      .ok [PreparedPlaceholder.text (String.mk ['a'])] :=
  ⟨c7_template_syntax_failure.1 ['a'] (by decide),
   c7_template_syntax_failure.2.2.2 ['a'] ['b'] (by decide) (by decide) (by decide)⟩

end JsonExporter
